import Mathlib

/-!
Verification development for the Connect4 repository.

The definitions below are a shallow embedding of the Python sources:
  * `connect4/game.py` — the current engine (`Game`, `State`, `StateView`,
    `Action`, `Actions`, `Outcome`, `Outcomes`);
  * `connect4.py` — the legacy single-file variant (here prefixed `LState`),
    needed because several claims cite its `check_for_end` and `play`.

Modelling conventions:
  * External tokens are arbitrary hashable Python objects; claims only use
    their identity, so they are modelled as `Nat`.
  * Internal token ids are the `range(len(tokens))` values, i.e. `Nat`;
    the legacy engine uses lowercase letters, i.e. `Char`.
  * A Python `dict` built by a comprehension is modelled as an insertion-order
    association list with last-write-wins update (`dictInsert`/`buildMap`);
    `bidict` adds the inverse lookup (`lookupId`), total on the stored values.
  * Raised Python exceptions become `Except`/explicit error results; a raise
    happens before any mutation, so the erroring function returns no new state.
  * The unbounded `while True` loop of `Game.play` is embedded with an explicit
    fuel parameter (`playAux`); `LoopResult.fuelOut` marks fuel exhaustion and
    is proved unreachable for fuel `rows*columns + 1`.
-/

namespace Connect4

/-- External token: an opaque identifier supplied by the caller, one per
agent.  Python allows any hashable object; claims use only identity. -/
abbrev Token := Nat

/-- One board cell of `connect4/game.py`: `None` (empty) or an internal
token id (an element of `range(len(tokens))`). -/
abbrev Cell := Option Nat

/-- `Outcomes` enum of `connect4/game.py` (WIN / LOSE / DRAW). -/
inductive Outcomes where
  | WIN : Outcomes
  | LOSE : Outcomes
  | DRAW : Outcomes
deriving DecidableEq

/-- `Actions` enum of `connect4/game.py`: only PLACE exists. -/
inductive Actions where
  | PLACE : Actions
deriving DecidableEq

/-- A dynamically typed Python value in the `place_column` slot: either an
`int` or something of another type (which `Game.play` rejects with
`TypeError`). -/
inductive PyValue where
  | int : Int → PyValue
  | notInt : PyValue
deriving DecidableEq

/-- `Action` of `connect4/game.py`: an action kind plus a 1-indexed target
column as returned by the agent (not yet validated). -/
structure Action where
  action : Actions
  place_column : PyValue
deriving DecidableEq

/-- The exception classes raised by the engine.  Messages are omitted; only
the class matters to the claims. -/
inductive GameErr where
  | actionError : GameErr
  | keyError : GameErr
  | valueError : GameErr
  | typeError : GameErr
  | stopIteration : GameErr
deriving DecidableEq

/-- Python `dict` insertion: updating an existing key keeps its position
(last-write-wins on the value), a fresh key is appended. -/
def dictInsert {β : Type} (m : List (Token × β)) (k : Token) (v : β) : List (Token × β) :=
  if m.any (fun p => p.1 == k) then m.map (fun p => if p.1 == k then (k, v) else p)
  else m ++ [(k, v)]

/-- The final dict produced by a comprehension over `pairs`
(`{token: value for token, value in pairs}`). -/
def buildMap {β : Type} (pairs : List (Token × β)) : List (Token × β) :=
  pairs.foldl (fun m p => dictInsert m p.1 p.2) []

/-- Forward dict lookup `m[t]` (`none` models a `KeyError`). -/
def lookupToken {β : Type} (m : List (Token × β)) (t : Token) : Option β :=
  (m.find? (fun p => p.1 == t)).map (fun p => p.2)

/-- `bidict` inverse lookup `m.inverse[v]` (`none` models a `KeyError`). -/
def lookupId {β : Type} [BEq β] (m : List (Token × β)) (v : β) : Option Token :=
  (m.find? (fun p => p.2 == v)).map (fun p => p.1)

/-- `State` of `connect4/game.py`: the token bijection, the board size and
the flat row-major board (`_board`, top row first). -/
structure State where
  token_map : List (Token × Nat)
  n_rows : Nat
  n_columns : Nat
  board : List Cell
deriving DecidableEq

/-- `State.__init__`: `token_map = bidict({t: i for t, i in zip(tokens,
range(len(tokens)))})`, board `[None] * n_rows * n_columns`. -/
def State.init (external_tokens : List Token) (board_size : Nat × Nat) : State :=
  { token_map := buildMap (external_tokens.zip (List.range external_tokens.length))
    n_rows := board_size.1
    n_columns := board_size.2
    board := List.replicate (board_size.1 * board_size.2) none }

/-- The cell of 1-indexed column `col` in (0-indexed, top-first) row `r`:
`board[r * n_columns + col - 1]`. -/
def cellAt (st : State) (r col : Nat) : Cell :=
  st.board.getD (r * st.n_columns + col - 1) none

/-- The scan of `place_token` / `_place_token`:
`for row in range(n_rows): if board[row*C+col-1] occupied: break
 else: lowest = row`.  `r` is the current row, the second argument the
number of rows still to visit, `acc` the best row found so far. -/
def scanColumn {α : Type} (board : List (Option α)) (C col : Nat) :
    Nat → Nat → Option Nat → Option Nat
  | _, 0, acc => acc
  | r, n+1, acc =>
    if (board.getD (r * C + col - 1) none).isSome then acc
    else scanColumn board C col (r+1) n (some r)

/-- `lowest_open_cell_in_column` after the scan loop of `State.place_token`. -/
def lowestOpenCellInColumn (st : State) (col : Nat) : Option Nat :=
  scanColumn st.board st.n_columns col 0 st.n_rows none

/-- `State.place_token(column, token)`: find the lowest open cell of the
column; a full column raises `ActionError` (before any mutation), an unknown
token raises `KeyError` (from `token_map[token]`); otherwise the cell is set
to the token's internal id — the sole mutation of board state. -/
def State.place_token (st : State) (column : Nat) (token : Token) :
    Except GameErr State :=
  match lowestOpenCellInColumn st column with
  | none => .error .actionError
  | some row =>
    match lookupToken st.token_map token with
    | none => .error .keyError
    | some id =>
      .ok { st with board := st.board.set (row * st.n_columns + column - 1) (some id) }

/-- A Python extended slice `board[a : a + 4*s : s]` whose four indices are
in range: the index list `[a, a+s, a+2s, a+3s]`. -/
def sliceIdx (a s : Nat) : List Nat :=
  [a, a + s, a + 2 * s, a + 3 * s]

/-- Index lists of the horizontal slices of `_generate_lines`:
`board[r*C+c : r*C+c+4]` for `row in range(R)`, `column in range(C-3)`. -/
def hLines (R C : Nat) : List (List Nat) :=
  (List.range R).flatMap (fun r =>
    (List.range (C - 3)).map (fun c => sliceIdx (r * C + c) 1))

/-- Index lists of the vertical slices: step `C`, `row in range(R-3)`,
`column in range(C)`. -/
def vLines (R C : Nat) : List (List Nat) :=
  (List.range (R - 3)).flatMap (fun r =>
    (List.range C).map (fun c => sliceIdx (r * C + c) C))

/-- Index lists of the `\` diagonal slices: step `C+1`, `row in range(R-3)`,
`column in range(C-3)`. -/
def d1Lines (R C : Nat) : List (List Nat) :=
  (List.range (R - 3)).flatMap (fun r =>
    (List.range (C - 3)).map (fun c => sliceIdx (r * C + c) (C + 1)))

/-- Index lists of the `/` diagonal slices: step `C-1`, `row in range(R-3)`,
`column in range(3, C)`. -/
def d2Lines (R C : Nat) : List (List Nat) :=
  (List.range (R - 3)).flatMap (fun r =>
    ((List.range (C - 3)).map (fun c => c + 3)).map (fun c => sliceIdx (r * C + c) (C - 1)))

/-- All slice index lists yielded by `State._generate_lines`, in yield
order (rows, columns, `\` diagonals, `/` diagonals). -/
def generateLineIdx (R C : Nat) : List (List Nat) :=
  hLines R C ++ vLines R C ++ d1Lines R C ++ d2Lines R C

/-- `State._generate_lines()`: the cell contents of every slice.  All slice
indices lie below `R*C` (proved below), so `getD` agrees with Python list
indexing on the `R*C`-cell board. -/
def State.generate_lines (st : State) : List (List Cell) :=
  (generateLineIdx st.n_rows st.n_columns).map
    (fun idxs => idxs.map (fun i => st.board.getD i none))

/-- `line[0] is not None and len(set(line)) == 1` for a nonempty line:
the head is occupied and every element equals the head.  Generated lines
always have four cells, so the `[]` case is unreachable. -/
def isWinningLine {α : Type} [BEq α] (line : List (Option α)) : Bool :=
  match line with
  | [] => false
  | c :: rest => c.isSome && rest.all (fun x => x == c)

/-- `token_map.inverse[line[0]]` for the first winning line: the external
token owning the line. -/
def lineOwner (st : State) (line : List Cell) : Option Token :=
  match line.head? with
  | some (some id) => lookupId st.token_map id
  | _ => none

/-- `State.check_for_outcome()`: the first winning line (in yield order)
gives `(WIN, owning token)`; otherwise a board with no `None` cell gives
`(DRAW, None)`; otherwise `(None, None)` (unfinished). -/
def State.check_for_outcome (st : State) : Option Outcomes × Option Token :=
  match st.generate_lines.find? isWinningLine with
  | some line => (some Outcomes.WIN, lineOwner st line)
  | none =>
    if st.board.all (fun c => c.isSome) then (some Outcomes.DRAW, none)
    else (none, none)

/-- `StateView` of `connect4/game.py`: board size plus the board with
internal ids translated back to external tokens. -/
structure StateView where
  board_size : Nat × Nat
  board : List (Option Token)
deriving DecidableEq

/-- One cell of the exposed view: `token if token is None else
token_map.inverse[token]`; an id missing from the map raises `KeyError`. -/
def resolveCell (m : List (Token × Nat)) : Cell → Except GameErr (Option Token)
  | none => .ok none
  | some id =>
    match lookupId m id with
    | some t => .ok (some t)
    | none => .error .keyError

/-- The translated board of `State.expose_view`, built left to right (the
first unknown id raises). -/
def resolveBoard (m : List (Token × Nat)) : List Cell → Except GameErr (List (Option Token))
  | [] => .ok []
  | c :: rest =>
    match resolveCell m c with
    | .error e => .error e
    | .ok t =>
      match resolveBoard m rest with
      | .error e => .error e
      | .ok ts => .ok (t :: ts)

/-- `State.expose_view()`: a fresh `StateView` with the translated board. -/
def State.expose_view (st : State) : Except GameErr StateView :=
  match resolveBoard st.token_map st.board with
  | .error e => .error e
  | .ok b => .ok { board_size := (st.n_rows, st.n_columns), board := b }

/-- An agent as the orchestrator sees it: its token plus its
`select_action` behaviour (a pure strategy over views). -/
structure AgentSpec where
  token : Token
  strategy : StateView → Action

/-- `Outcome` of `connect4/game.py`: per-agent results (parallel to the
game's agent list, which is how the `{agent: result}` dict keyed by the
distinct agent objects behaves) plus the `(token, action)` record. -/
structure Outcome where
  agent_outcomes : List (Option Outcomes)
  record : List (Token × Action)
deriving DecidableEq

/-- `Outcome.__init__`: all results unset, empty record. -/
def Outcome.init (agents : List AgentSpec) : Outcome :=
  { agent_outcomes := agents.map (fun _ => none), record := [] }

/-- `Game` after a successful `__init__`: the agent list and the validated
board size. -/
structure Game where
  agents : List AgentSpec
  n_rows : Nat
  n_columns : Nat

/-- The exception classes of `Game.__init__` argument validation. -/
inductive InitErr where
  | typeError : InitErr
  | valueError : InitErr
deriving DecidableEq

/-- `Game.__init__(agents, board_size)`: rejects fewer than 2 agents, a
`board_size` not of length 2, and a dimension `< 1`.  (The isinstance
checks concern Python typing and are unrepresentable here; agent elements
and integer dimensions are typed by construction.)  No token-distinctness
check exists in the source. -/
def Game.init (agents : List AgentSpec) (board_size : List Int) :
    Except InitErr Game :=
  if agents.length < 2 then .error .valueError
  else if board_size.length ≠ 2 then .error .valueError
  else if board_size.any (fun d => d < 1) then .error .valueError
  else .ok { agents := agents
             n_rows := (board_size.getD 0 0).toNat
             n_columns := (board_size.getD 1 0).toNat }

/-- The structural ("never trust an agent") validation of `Game.play`,
lines 50-61: wrong kind raises `ValueError`, a non-int column raises
`TypeError`, a column outside `[1, n_columns]` raises `ValueError`;
otherwise the column is handed on to `place_token`. -/
def validate_structure (n_columns : Nat) (a : Action) : Except GameErr Int :=
  if a.action ≠ Actions.PLACE then .error .valueError
  else
    match a.place_column with
    | .notInt => .error .typeError
    | .int n =>
      if n < 1 ∨ n > (n_columns : Int) then .error .valueError
      else .ok n

/-- `next(agents)` for `agents = itertools.cycle(perm)`: pop the pending
queue, reloading it from the saved `perm` when exhausted (`none` models the
`StopIteration` of cycling an empty sequence). -/
def nextAgent {α : Type} (perm queue : List α) : Option (α × List α) :=
  match queue with
  | a :: rest => some (a, rest)
  | [] =>
    match perm with
    | a :: rest => some (a, rest)
    | [] => none

/-- The pending queue of the cycle iterator before turn `t`. -/
def cycleState {α : Type} (perm : List α) : Nat → List α
  | 0 => perm
  | t+1 =>
    match nextAgent perm (cycleState perm t) with
    | some (_, rest) => rest
    | none => []

/-- The agent the cycle iterator hands out on (0-indexed) turn `t`. -/
def agentAtTurn {α : Type} (perm : List α) (t : Nat) : Option α :=
  (nextAgent perm (cycleState perm t)).map (fun p => p.1)

/-- Result of the `while True` loop of `Game.play`: loop exit with the
final `Outcome`, a raised exception (with the authoritative `State` at the
moment of the raise — untouched by the raising turn), or fuel exhaustion
of the embedding. -/
inductive LoopResult where
  | done : Outcome → LoopResult
  | raised : GameErr → State → LoopResult
  | fuelOut : LoopResult
deriving DecidableEq

/-- One turn of `Game.play` per fuel unit: take the next agent from the
cycle, expose a fresh view, ask the agent, validate structurally (raising
before any placement), place, append to the record, then check the
outcome: WIN marks winner/losers, DRAW marks everyone, otherwise loop. -/
def playAux (g : Game) (perm : List AgentSpec) :
    Nat → List AgentSpec → State → Outcome → LoopResult
  | 0, _, _, _ => .fuelOut
  | fuel+1, queue, st, out =>
    match nextAgent perm queue with
    | none => .raised .stopIteration st
    | some (ag, queue2) =>
      match st.expose_view with
      | .error e => .raised e st
      | .ok view =>
        let action := ag.strategy view
        match validate_structure g.n_columns action with
        | .error e => .raised e st
        | .ok colv =>
          match st.place_token colv.toNat ag.token with
          | .error e => .raised e st
          | .ok st2 =>
            let out2 : Outcome := { out with record := out.record ++ [(ag.token, action)] }
            match st2.check_for_outcome with
            | (some Outcomes.WIN, wt) =>
              let res := g.agents.map (fun a =>
                if wt = some a.token then some Outcomes.WIN else some Outcomes.LOSE)
              .done { out2 with agent_outcomes := res }
            | (some Outcomes.DRAW, _) =>
              .done { out2 with agent_outcomes := g.agents.map (fun _ => some Outcomes.DRAW) }
            | _ => playAux g perm fuel queue2 st2 out2

/-- The observable effects of a completed `Game.play` call: the
`notify_outcome` calls (in registration order) and the Python return
value.  `Game.play` in `connect4/game.py` has no `return` statement, so a
normal completion returns `None`. -/
structure PlayEffects where
  notified : List (Token × Outcome)
  returnValue : Option Outcome
deriving DecidableEq

/-- Result of a `Game.play` call. -/
inductive PlayResult where
  | normal : PlayEffects → PlayResult
  | raised : GameErr → State → PlayResult
  | fuelOut : PlayResult
deriving DecidableEq

/-- `Game.play()`: build the cycle over the sampled permutation `perm`
(randomness externalized: `random.sample` yields some permutation of the
agent list), the fresh `State` over the agents' tokens and the fresh
`Outcome`, run the loop, then notify every agent and fall off the end of
the function (returning `None`). -/
def Game.play (g : Game) (perm : List AgentSpec) (fuel : Nat) : PlayResult :=
  match playAux g perm fuel perm
      (State.init (g.agents.map (fun a => a.token)) (g.n_rows, g.n_columns))
      (Outcome.init g.agents) with
  | .done out => .normal { notified := g.agents.map (fun a => (a.token, out)), returnValue := none }
  | .raised e st => .raised e st
  | .fuelOut => .fuelOut

/-- Number of empty cells of a board — the termination measure of the play
loop. -/
def emptyCount (board : List Cell) : Nat :=
  board.countP (fun c => c.isNone)

/-- The column-stacking invariant of reachable boards: in every column, an
occupied cell has every cell below it (larger row index) occupied too. -/
def Stacked (st : State) : Prop :=
  ∀ col, col < st.n_columns → ∀ r2, r2 < st.n_rows → ∀ r1, r1 ≤ r2 →
    (cellAt st r1 (col + 1)).isSome → (cellAt st r2 (col + 1)).isSome

/-- States reachable from a fresh `State` by successful placements — the
states that occur during a game. -/
inductive Reachable (tokens : List Token) (size : Nat × Nat) : State → Prop where
  | init : Reachable tokens size (State.init tokens size)
  | step {st st' : State} {col : Nat} {tok : Token} :
      Reachable tokens size st → st.place_token col tok = .ok st' →
      Reachable tokens size st'

/-- `LState` — `State` of the legacy `connect4.py`: internal tokens are
lowercase letters. -/
structure LState where
  token_map : List (Token × Char)
  n_rows : Nat
  n_columns : Nat
  board : List (Option Char)
deriving DecidableEq

/-- `State.internal_tokens = string.ascii_lowercase` of `connect4.py`. -/
def internal_tokens : List Char :=
  "abcdefghijklmnopqrstuvwxyz".toList

/-- Legacy `State.__init__`: zip the external tokens with the first
letters. -/
def LState.init (external_tokens : List Token) (size : Nat × Nat) : LState :=
  { token_map := buildMap (external_tokens.zip (internal_tokens.take external_tokens.length))
    n_rows := size.1
    n_columns := size.2
    board := List.replicate (size.1 * size.2) none }

/-- Legacy `State._generate_lines` — identical slice arithmetic to the
current engine. -/
def LState.generate_lines (st : LState) : List (List (Option Char)) :=
  (generateLineIdx st.n_rows st.n_columns).map
    (fun idxs => idxs.map (fun i => st.board.getD i none))

/-- Legacy `State._place_token`: same scan; returns the success flag
instead of raising.  (A token missing from `token_map` would raise
`KeyError` in Python; the callers below only use map keys.) -/
def LState.place_token (st : LState) (column : Nat) (token : Token) : LState × Bool :=
  match scanColumn st.board st.n_columns column 0 st.n_rows none with
  | none => (st, false)
  | some row =>
    match lookupToken st.token_map token with
    | none => (st, false)
    | some ch =>
      ({ st with board := st.board.set (row * st.n_columns + column - 1) (some ch) }, true)

/-- Legacy `State.check_for_end`: a full board is a Draw for everybody —
checked BEFORE any win scan — otherwise the first winning line marks its
owner Win and the rest Loss; `None` when unfinished.  Results keyed by the
external tokens in `token_map` order. -/
def LState.check_for_end (st : LState) : Option (List (Token × String)) :=
  if st.board.all (fun c => c.isSome) then
    some ((st.token_map.map (fun p => p.1)).map (fun t => (t, "Draw")))
  else
    match st.generate_lines.find? isWinningLine with
    | some line =>
      some ((st.token_map.map (fun p => p.1)).map
        (fun t => (t, if line.headD none == lookupToken st.token_map t then "Win" else "Loss")))
    | none => none

/-- Specification-side predicate (from the claim wording, independent of the
slice arithmetic of the source): `l` is the flat-index list of a length-4
contiguous run of board cells, in one of the four direction families —
horizontal, vertical, `\` diagonal or `/` diagonal — that fits on an
`R × C` board.  Cell `(row, col)` has flat row-major index `row * C + col`. -/
def IsFourRunSpec (R C : Nat) (l : List Nat) : Prop :=
  (∃ r c, r < R ∧ c + 3 < C ∧
    l = [r * C + c, r * C + (c+1), r * C + (c+2), r * C + (c+3)]) ∨
  (∃ r c, r + 3 < R ∧ c < C ∧
    l = [r * C + c, (r+1) * C + c, (r+2) * C + c, (r+3) * C + c]) ∨
  (∃ r c, r + 3 < R ∧ c + 3 < C ∧
    l = [r * C + c, (r+1) * C + (c+1), (r+2) * C + (c+2), (r+3) * C + (c+3)]) ∨
  (∃ r c, r + 3 < R ∧ 3 ≤ c ∧ c < C ∧
    l = [r * C + c, (r+1) * C + (c-1), (r+2) * C + (c-2), (r+3) * C + (c-3)])

/-- Specification-side predicate: some generated line consists of four
identical non-empty cells (the claim's WIN condition). -/
def HasWinningLine (st : State) : Prop :=
  ∃ line ∈ st.generate_lines, line ≠ [] ∧ ∃ v : Nat, ∀ c ∈ line, c = some v

/-- Concrete agent used by witnesses: token 10, always places in column 1. -/
def agA : AgentSpec :=
  { token := 10, strategy := fun _ => { action := .PLACE, place_column := .int 1 } }

/-- Concrete agent used by witnesses: token 11, always places in column 1. -/
def agB : AgentSpec :=
  { token := 11, strategy := fun _ => { action := .PLACE, place_column := .int 1 } }

/-- Concrete misbehaving agent used by witnesses: returns column 0, which is
structurally out of range. -/
def badAgent : AgentSpec :=
  { token := 9, strategy := fun _ => { action := .PLACE, place_column := .int 0 } }

/-- Concrete game on a 1 × 1 board between `agA` and `agB`. -/
def tinyGame : Game :=
  { agents := [agA, agB], n_rows := 1, n_columns := 1 }

/-- Concrete state with tokens 0 ↦ id 0 and 1 ↦ id 1 on a full 1 × 1 board
(reached by one placement of token 0 on the fresh board). -/
def stFull : State :=
  { token_map := [(0, 0), (1, 1)], n_rows := 1, n_columns := 1, board := [some 0] }

/-- Concrete legacy game state: two tokens on a 1 × 4 board. -/
def lcex0 : LState := LState.init [0, 1] (1, 4)

/-- Legacy board after token 0 places in columns 1, 2, 3 and 4: the bottom
row is four copies of its letter — a full board containing a winning line. -/
def lcex : LState :=
  (((((lcex0.place_token 1 0).1.place_token 2 0).1.place_token 3 0).1.place_token 4 0).1)

/-- Concrete game on a 1 × 1 board whose first agent misbehaves. -/
def badGame : Game :=
  { agents := [badAgent, agB], n_rows := 1, n_columns := 1 }

/-- The final outcome of the tiny 1 × 1 game: one placement by agent 10,
then a draw (no line fits on one cell). -/
def tinyOut : Outcome :=
  { agent_outcomes := [some Outcomes.DRAW, some Outcomes.DRAW]
    record := [(10, { action := .PLACE, place_column := .int 1 })] }

/-- Two distinct agents carrying the SAME external token 0. -/
def dupAgent1 : AgentSpec :=
  { token := 0, strategy := fun _ => { action := .PLACE, place_column := .int 1 } }

/-- Second agent with duplicate token 0 (different behaviour, same token). -/
def dupAgent2 : AgentSpec :=
  { token := 0, strategy := fun _ => { action := .PLACE, place_column := .int 2 } }

/-- Concrete witness state: one agent (token 5), empty 2 × 1 board. -/
def wSt : State := State.init [5] (2, 1)

/-! ## Helper lemmas -/

/-- Row-major decoding is injective: `r*C + c` with `c < C` determines
`(r, c)`. -/
theorem rowcol_inj {C r1 c1 r2 c2 : Nat} (h1 : c1 < C) (h2 : c2 < C)
    (h : r1 * C + c1 = r2 * C + c2) : r1 = r2 ∧ c1 = c2 := by
  have hC : 0 < C := Nat.lt_of_le_of_lt (Nat.zero_le c1) h1
  have hc : c1 = c2 := by
    have e1 : (r1 * C + c1) % C = c1 := by
      rw [Nat.add_comm, Nat.add_mul_mod_self_right, Nat.mod_eq_of_lt h1]
    have e2 : (r2 * C + c2) % C = c2 := by
      rw [Nat.add_comm, Nat.add_mul_mod_self_right, Nat.mod_eq_of_lt h2]
    rw [← e1, ← e2, h]
  subst hc
  have hr : r1 * C = r2 * C := by omega
  exact ⟨Nat.eq_of_mul_eq_mul_right hC hr, rfl⟩

/-- Flat row-major indices of on-board cells are below `R*C`. -/
theorem index_lt {R C r c : Nat} (hr : r < R) (hc : c < C) : r * C + c < R * C :=
  calc r * C + c < r * C + C := by omega
    _ = (r + 1) * C := by ring
    _ ≤ R * C := Nat.mul_le_mul_right C hr

/-- Reading back the just-set entry. -/
theorem getD_set_self {α : Type} (l : List α) (i : Nat) (v d : α) (h : i < l.length) :
    (l.set i v).getD i d = v := by
  simp [List.getD_eq_getElem?_getD, List.getElem?_set_self h]

/-- Reading another entry after a set. -/
theorem getD_set_ne {α : Type} (l : List α) {i j : Nat} (v d : α) (h : i ≠ j) :
    (l.set i v).getD j d = l.getD j d := by
  simp [List.getD_eq_getElem?_getD, List.getElem?_set_ne h]

/-- Reading a replicated list. -/
theorem getD_replicate {α : Type} {n i : Nat} {a d : α} :
    (List.replicate n a).getD i d = if i < n then a else d := by
  simp only [List.getD_eq_getElem?_getD, List.getElem?_replicate]
  split <;> rfl

/-- Setting an empty in-range cell to a token decrements the number of
empty cells by exactly one. -/
theorem emptyCount_set (v : Nat) :
    ∀ (l : List Cell) (i : Nat), i < l.length → l.getD i none = none →
      emptyCount (l.set i (some v)) + 1 = emptyCount l := by
  intro l
  induction l with
  | nil => intro i hi _; simp at hi
  | cons a t ih =>
    intro i hi he
    cases i with
    | zero =>
      simp only [List.getD_cons_zero] at he
      subst he
      simp [emptyCount, List.countP_cons]
    | succ i =>
      simp only [List.getD_cons_succ] at he
      have := ih i (by simpa using hi) he
      simp only [List.set_cons_succ, emptyCount, List.countP_cons] at *
      omega

/-- The fresh board has `R*C` empty cells. -/
theorem emptyCount_replicate (n : Nat) : emptyCount (List.replicate n none) = n := by
  induction n with
  | zero => rfl
  | succ n ih => simp [emptyCount, List.replicate_succ, List.countP_cons] at *; omega

/-- Scan step on an empty current row: remember the row and continue. -/
theorem scanColumn_succ_empty {α : Type} (board : List (Option α)) (C col r n : Nat)
    (acc : Option Nat) (h : board.getD (r * C + col - 1) none = none) :
    scanColumn board C col r (n+1) acc = scanColumn board C col (r+1) n (some r) := by
  simp only [scanColumn, h, Option.isSome_none, Bool.false_eq_true, if_false]

/-- Scan step on an occupied current row: the `break` of the Python loop. -/
theorem scanColumn_succ_occupied {α : Type} (board : List (Option α)) (C col r n : Nat)
    (acc : Option Nat) (h : (board.getD (r * C + col - 1) none).isSome = true) :
    scanColumn board C col r (n+1) acc = acc := by
  simp only [scanColumn, h, if_true]

/-- The column scan, started at row `r`, stops just before the first
occupied row `m`: if rows `r..m-1` are empty and row `m` is occupied (or
the rows run out at `m`), the scan returns `m - 1`. -/
theorem scanColumn_from {α : Type} (board : List (Option α)) (C col : Nat) :
    ∀ (n r m : Nat) (acc : Option Nat), r < m →
      (∀ i, r ≤ i → i < m → (board.getD (i * C + col - 1) none) = none) →
      (m = r + n ∨ (m < r + n ∧ (board.getD (m * C + col - 1) none).isSome)) →
      scanColumn board C col r n acc = some (m - 1) := by
  intro n
  induction n with
  | zero => intro r m acc hrm _ hstop; omega
  | succ n ih =>
    intro r m acc hrm hemp hstop
    have hr : board.getD (r * C + col - 1) none = none := hemp r (Nat.le_refl r) hrm
    rw [scanColumn_succ_empty board C col r n acc hr]
    by_cases hend : r + 1 = m
    · subst hend
      rcases hstop with h | ⟨hlt, hocc⟩
      · have hn : n = 0 := by omega
        subst hn
        simp [scanColumn]
      · obtain ⟨n, rfl⟩ := Nat.exists_eq_succ_of_ne_zero (by omega : n ≠ 0)
        rw [scanColumn_succ_occupied board C col (r+1) n (some r) hocc]
        simp
    · refine ih (r+1) m (some r) (by omega) (fun i hi1 hi2 => hemp i (by omega) hi2) ?_
      rcases hstop with h | ⟨hlt, hocc⟩
      · exact Or.inl (by omega)
      · exact Or.inr ⟨by omega, hocc⟩

/-- Soundness of the scan: a returned row is on the board and empty
(provided the accumulator already satisfies this). -/
theorem scanColumn_sound {α : Type} (board : List (Option α)) (C col : Nat) :
    ∀ (n r : Nat) (acc : Option Nat),
      (∀ j, acc = some j → j < r ∧ board.getD (j * C + col - 1) none = none) →
      ∀ j, scanColumn board C col r n acc = some j →
        j < r + n ∧ board.getD (j * C + col - 1) none = none := by
  intro n
  induction n with
  | zero =>
    intro r acc hacc j hj
    have := hacc j hj
    exact ⟨by omega, this.2⟩
  | succ n ih =>
    intro r acc hacc j hj
    by_cases hocc : (board.getD (r * C + col - 1) none).isSome = true
    · rw [scanColumn_succ_occupied board C col r n acc hocc] at hj
      have := hacc j hj
      exact ⟨by omega, this.2⟩
    · have hr : board.getD (r * C + col - 1) none = none := by
        rcases hcell : board.getD (r * C + col - 1) none with _ | v
        · rfl
        · rw [hcell] at hocc; simp at hocc
      rw [scanColumn_succ_empty board C col r n acc hr] at hj
      have := ih (r+1) (some r) (fun j hjeq => by
        injection hjeq with hjeq
        exact hjeq ▸ ⟨Nat.lt_succ_self r, hr⟩) j hj
      exact ⟨by omega, this.2⟩

/-- A dict insertion only produces entries of the old dict or the new key. -/
theorem dictInsert_mem {β : Type} {m : List (Token × β)} {k : Token} {v : β}
    {p : Token × β} (h : p ∈ dictInsert m k v) : p ∈ m ∨ p.1 = k := by
  unfold dictInsert at h
  split at h
  · rcases List.mem_map.1 h with ⟨q, hq, hpq⟩
    by_cases hqk : q.1 == k
    · right
      simp only [hqk, if_true] at hpq
      rw [← hpq]
    · left
      simp only [hqk, if_false] at hpq
      rwa [← hpq]
  · rcases List.mem_append.1 h with hm | hk
    · exact Or.inl hm
    · right
      simp only [List.mem_singleton] at hk
      rw [hk]

/-- Every key of the dict built from `pairs` is a key of `pairs`. -/
theorem buildMap_keys {β : Type} {pairs : List (Token × β)} {p : Token × β}
    (h : p ∈ buildMap pairs) : ∃ q ∈ pairs, p.1 = q.1 := by
  unfold buildMap at h
  suffices hgen : ∀ (l : List (Token × β)) (m : List (Token × β)),
      p ∈ l.foldl (fun m q => dictInsert m q.1 q.2) m → p ∈ m ∨ ∃ q ∈ l, p.1 = q.1 by
    rcases hgen pairs [] h with hm | hq
    · simp at hm
    · exact hq
  intro l
  induction l with
  | nil => intro m hm; exact Or.inl hm
  | cons q rest ih =>
    intro m hm
    rcases ih (dictInsert m q.1 q.2) hm with hins | ⟨q2, hq2, hpq2⟩
    · rcases dictInsert_mem hins with h1 | h2
      · exact Or.inl h1
      · exact Or.inr ⟨q, List.mem_cons_self q rest, h2⟩
    · exact Or.inr ⟨q2, List.mem_cons_of_mem q hq2, hpq2⟩

/-- A successful forward lookup comes from an entry of the dict. -/
theorem lookupToken_mem {β : Type} {m : List (Token × β)} {t : Token} {v : β}
    (h : lookupToken m t = some v) : (t, v) ∈ m := by
  unfold lookupToken at h
  rcases hf : m.find? (fun p => p.1 == t) with _ | p
  · rw [hf] at h
    simp at h
  · rw [hf] at h
    have hmem := List.mem_of_find?_eq_some hf
    have hkey := List.find?_some hf
    simp at h hkey
    rw [← hkey, ← h]
    exact hmem

/-- A successful inverse lookup returns a key of the dict, paired there
with the looked-up value. -/
theorem lookupId_mem {β : Type} [BEq β] [LawfulBEq β] {m : List (Token × β)} {v : β}
    {t : Token} (h : lookupId m v = some t) : ∃ p ∈ m, p.1 = t ∧ p.2 = v := by
  unfold lookupId at h
  rcases hf : m.find? (fun p => p.2 == v) with _ | p
  · rw [hf] at h
    simp at h
  · rw [hf] at h
    have hmem := List.mem_of_find?_eq_some hf
    have hval := List.find?_some hf
    simp at h hval
    exact ⟨p, hmem, h, hval⟩

/-- The inverse lookup succeeds on every value stored in the dict. -/
theorem lookupId_isSome {β : Type} [BEq β] [LawfulBEq β] {m : List (Token × β)} {v : β}
    (h : ∃ p ∈ m, p.2 = v) : (lookupId m v).isSome = true := by
  unfold lookupId
  rcases h with ⟨p, hp, hv⟩
  rcases hf : m.find? (fun p => p.2 == v) with _ | q
  · exfalso
    have hnone := List.find?_eq_none.1 hf p hp
    simp [hv] at hnone
  · rw [hf]
    rfl

/-- Cycle step on the modulus: `(t+1) % k` from `t % k`. -/
theorem mod_step {k m t : Nat} (hk : 0 < k) (h : t % k = m) :
    (t + 1) % k = if m + 1 = k then 0 else m + 1 := by
  have hm : m < k := h ▸ Nat.mod_lt t hk
  have h1 : (t + 1) % k = (t % k + 1) % k := by
    conv_lhs => rw [← Nat.mod_add_mod]
  rw [h1, h]
  split
  · next heq => rw [heq]; exact Nat.mod_self k
  · next hne => exact Nat.mod_eq_of_lt (by omega)

/-- The cycle iterator over `perm` hands out `perm[t % k]` on turn `t`,
leaving `perm.drop (t % k + 1)` pending. -/
theorem cycle_next {α : Type} (perm : List α) (hne : perm ≠ []) (t : Nat) :
    ∃ a, perm[t % perm.length]? = some a ∧
      nextAgent perm (cycleState perm t) = some (a, perm.drop (t % perm.length + 1)) := by
  have hk : 0 < perm.length := List.length_pos.2 hne
  induction t with
  | zero =>
    cases perm with
    | nil => simp at hne
    | cons a rest =>
      refine ⟨a, ?_, ?_⟩
      · simp
      · simp [cycleState, nextAgent]
  | succ t ih =>
    obtain ⟨a, hget, hnext⟩ := ih
    have hstate : cycleState perm (t+1) = perm.drop (t % perm.length + 1) := by
      simp [cycleState, hnext]
    have hmod := mod_step hk (rfl : t % perm.length = t % perm.length)
    by_cases hcase : t % perm.length + 1 = perm.length
    · have hqueue : cycleState perm (t+1) = [] := by
        rw [hstate, hcase, List.drop_length]
      have hmod0 : (t+1) % perm.length = 0 := by rw [hmod, if_pos hcase]
      rcases perm with _ | ⟨b, rest⟩
      · simp at hne
      · refine ⟨b, ?_, ?_⟩
        · rw [hmod0]
          simp
        · rw [hqueue, hmod0]
          simp [nextAgent]
    · have hlt : t % perm.length + 1 < perm.length := by
        have := Nat.mod_lt t hk
        omega
      have hmod1 : (t+1) % perm.length = t % perm.length + 1 := by
        rw [hmod, if_neg hcase]
      have hdrop : perm.drop (t % perm.length + 1) =
          perm[t % perm.length + 1] :: perm.drop (t % perm.length + 1 + 1) :=
        List.drop_eq_getElem_cons hlt
      refine ⟨perm[t % perm.length + 1], ?_, ?_⟩
      · rw [hmod1]
        exact List.getElem?_eq_getElem hlt
      · rw [hstate, hdrop, hmod1]
        simp [nextAgent]

/-! ## Claim theorems -/

/-- C4: in every state whose target column has no empty cell,
`place_token` raises the state-dependent `ActionError`; the raise happens
before the single mutation point, so every cell of the board is left
unchanged (the embedding returns no successor state on error). -/
theorem place_token_full_column_error (st : State) (col : Nat) (tok : Token)
    (hfull : ∀ r, r < st.n_rows → (cellAt st r col).isSome = true) :
    st.place_token col tok = .error GameErr.actionError := by
  have hscan : scanColumn st.board st.n_columns col 0 st.n_rows none = none := by
    rcases hR : st.n_rows with _ | n
    · rfl
    · have h0 : (st.board.getD (0 * st.n_columns + col - 1) none).isSome = true := by
        have := hfull 0 (by omega)
        simpa [cellAt] using this
      exact scanColumn_succ_occupied st.board st.n_columns col 0 n none h0
  simp [State.place_token, lowestOpenCellInColumn, hscan]

/-- C4 witness: placing token 0 into the full single column of `stFull`
raises `ActionError`. -/
theorem place_token_full_column_error_witness :
    stFull.place_token 1 0 = .error GameErr.actionError :=
  place_token_full_column_error stFull 1 0 (by decide)

/-- C6 (amended): `Game.__init__` succeeds exactly when at least two agents
are supplied, the board size has two dimensions and every dimension is at
least 1.  Token distinctness plays no role. -/
theorem game_init_characterization (agents : List AgentSpec) (bs : List Int) :
    (∃ g, Game.init agents bs = .ok g) ↔
      (2 ≤ agents.length ∧ bs.length = 2 ∧ ∀ d ∈ bs, 1 ≤ d) := by
  unfold Game.init
  split_ifs with h1 h2 h3
  · constructor
    · rintro ⟨g, hg⟩
      exact absurd hg (by simp)
    · rintro ⟨hlen, -, -⟩
      omega
  · constructor
    · rintro ⟨g, hg⟩
      exact absurd hg (by simp)
    · rintro ⟨-, hlen2, -⟩
      exact absurd hlen2 h2
  · constructor
    · rintro ⟨g, hg⟩
      exact absurd hg (by simp)
    · rintro ⟨-, -, hall⟩
      rcases List.any_eq_true.1 h3 with ⟨d, hd, hdlt⟩
      have hge := hall d hd
      simp at hdlt
      omega
  · constructor
    · intro _
      refine ⟨by omega, of_not_not h2, ?_⟩
      intro d hd
      by_contra hlt
      exact h3 (List.any_eq_true.2 ⟨d, hd, by simp; omega⟩)
    · intro _
      exact ⟨_, rfl⟩

/-- C6 counterexample: two agents with the SAME token are accepted by
`Game.__init__` — the claimed duplicate-token construction error does not
exist in the code. -/
theorem game_init_duplicate_tokens_counterexample :
    dupAgent1.token = dupAgent2.token ∧
      ∃ g, Game.init [dupAgent1, dupAgent2] [6, 7] = .ok g := by
  exact ⟨rfl, ⟨_, rfl⟩⟩

/-- C9: the cycle iterator over the single sampled permutation `perm`
(chosen once before the loop of `Game.play` and never reshuffled) hands
out `perm[t % k]` on 0-indexed turn `t` (`k` agents); when the agents of
the permutation are pairwise distinct, the agent at position `i` acts
exactly on the turns `t` with `t % k = i`, i.e. `i, i+k, i+2k, …`. -/
theorem turn_order_cyclic {α : Type} (perm : List α) (hne : perm ≠ []) (t : Nat) :
    agentAtTurn perm t = perm[t % perm.length]? ∧
      (perm.Nodup → ∀ i, i < perm.length →
        (agentAtTurn perm t = perm[i]? ↔ t % perm.length = i)) := by
  obtain ⟨a, hget, hnext⟩ := cycle_next perm hne t
  have hbase : agentAtTurn perm t = perm[t % perm.length]? := by
    simp [agentAtTurn, hnext, hget]
  refine ⟨hbase, ?_⟩
  intro hnd i hi
  constructor
  · intro hat
    have heq : perm[t % perm.length]? = perm[i]? := by rw [← hbase, hat]
    exact List.getElem?_inj (Nat.mod_lt t (List.length_pos.2 hne)) hnd heq
  · rintro rfl
    exact hbase

/-- C9 witness: with the 3-agent permutation `[3, 4, 5]`, turn 7 is taken
by the agent at position `7 % 3 = 1`. -/
theorem turn_order_cyclic_witness :
    agentAtTurn [3, 4, 5] 7 = [3, 4, 5][7 % 3]? ∧
      (([3, 4, 5] : List Nat).Nodup → ∀ i, i < ([3, 4, 5] : List Nat).length →
        (agentAtTurn [3, 4, 5] 7 = [3, 4, 5][i]? ↔ 7 % 3 = i)) :=
  turn_order_cyclic [3, 4, 5] (by decide) 7

/-- C5: the structural validation of `Game.play` accepts an action exactly
when its kind is PLACE, its column is an `int` and the column lies in
`[1, n_columns]`; and a structurally invalid action makes the play loop
raise the corresponding fatal error immediately, before any placement —
the state at the raise is the untouched entry state. -/
theorem structural_validation_iff (C : Nat) (a : Action) :
    ((∃ n, validate_structure C a = .ok n) ↔
      (a.action = Actions.PLACE ∧
        ∃ n, a.place_column = PyValue.int n ∧ 1 ≤ n ∧ n ≤ (C : Int))) ∧
    (∀ (g : Game) (perm queue : List AgentSpec) (st : State) (out : Outcome)
      (fuel : Nat) (ag : AgentSpec) (queue2 : List AgentSpec) (view : StateView)
      (e : GameErr), g.n_columns = C →
        nextAgent perm queue = some (ag, queue2) →
        st.expose_view = .ok view →
        validate_structure C (ag.strategy view) = .error e →
        playAux g perm (fuel + 1) queue st out = .raised e st) := by
  constructor
  · rcases a with ⟨act, pc⟩
    cases act
    rcases pc with n | _
    · have hvs : validate_structure C { action := .PLACE, place_column := .int n } =
          if n < 1 ∨ n > (C : Int) then .error .valueError else .ok n := rfl
      constructor
      · rintro ⟨v, hv⟩
        rw [hvs] at hv
        split_ifs at hv with hrange
        exact ⟨rfl, n, rfl, by omega, by omega⟩
      · rintro ⟨-, v, hv, h1, h2⟩
        injection hv with hv
        subst hv
        refine ⟨n, ?_⟩
        rw [hvs, if_neg (by omega)]
    · have hvs : validate_structure C { action := .PLACE, place_column := .notInt } =
          .error .typeError := rfl
      constructor
      · rintro ⟨v, hv⟩
        rw [hvs] at hv
        simp at hv
      · rintro ⟨-, v, hv, -⟩
        simp at hv
  · intro g perm queue st out fuel ag queue2 view e hC hnext hview hval
    subst hC
    simp [playAux, hnext, hview, hval]

/-- C5 witness: `badAgent` returns column 0 on the fresh 1 × 1 board of
`badGame`; the loop raises `ValueError` at once, with the entry state
untouched. -/
theorem structural_validation_iff_witness :
    playAux badGame [badAgent, agB] (0 + 1) [badAgent, agB]
        (State.init [9, 11] (1, 1)) (Outcome.init [badAgent, agB]) =
      .raised GameErr.valueError (State.init [9, 11] (1, 1)) :=
  (structural_validation_iff 1
      { action := .PLACE, place_column := .int 0 }).2
    badGame [badAgent, agB] [badAgent, agB] (State.init [9, 11] (1, 1))
    (Outcome.init [badAgent, agB]) 0 badAgent [agB]
    { board_size := (1, 1), board := [none] } GameErr.valueError
    rfl rfl rfl rfl

/-- C7 (amended): when the loop of `Game.play` terminates with outcome
`out`, the call notifies every agent (in registration order) with `out`
and returns `None` — not the outcome; only the legacy `connect4.py`
version returns it. -/
theorem play_notifies_and_returns_none (g : Game) (perm : List AgentSpec)
    (fuel : Nat) (out : Outcome)
    (h : playAux g perm fuel perm
        (State.init (g.agents.map (fun a => a.token)) (g.n_rows, g.n_columns))
        (Outcome.init g.agents) = .done out) :
    g.play perm fuel =
      .normal { notified := g.agents.map (fun a => (a.token, out)), returnValue := none } := by
  unfold Game.play
  rw [h]

/-- C7 witness: the tiny 1 × 1 game runs to a draw; both agents are
notified with the final outcome and the call returns `None`. -/
theorem play_notifies_and_returns_none_witness :
    tinyGame.play [agA, agB] 2 =
      .normal { notified := [agA, agB].map (fun a => (a.token, tinyOut)), returnValue := none } :=
  play_notifies_and_returns_none tinyGame [agA, agB] 2 tinyOut (by decide)

/-- C7 counterexample: the claim says `play()` returns the game's Outcome
to its caller; in `connect4/game.py` a completed game returns `None`
even though a non-trivial outcome was computed and delivered to the
agents via `notify_outcome`. -/
theorem play_returns_none_counterexample :
    ∃ eff, tinyGame.play [agA, agB] 2 = PlayResult.normal eff ∧
      eff.returnValue = none ∧ eff.notified = [(10, tinyOut), (11, tinyOut)] := by
  refine ⟨{ notified := [(10, tinyOut), (11, tinyOut)], returnValue := none }, ?_, rfl, rfl⟩
  decide

/-- A line passes the source's winning test iff it is nonempty and all of
its cells hold one identical token id. -/
theorem isWinningLine_iff {α : Type} [BEq α] [LawfulBEq α] (line : List (Option α)) :
    isWinningLine line = true ↔ (line ≠ [] ∧ ∃ v, ∀ c ∈ line, c = some v) := by
  cases line with
  | nil => simp [isWinningLine]
  | cons c rest =>
    simp only [isWinningLine, Bool.and_eq_true, List.all_eq_true, beq_iff_eq]
    constructor
    · rintro ⟨hsome, hall⟩
      rcases Option.isSome_iff_exists.1 hsome with ⟨v, rfl⟩
      refine ⟨by simp, v, ?_⟩
      intro x hx
      rcases List.mem_cons.1 hx with rfl | hxr
      · rfl
      · exact hall x hxr
    · rintro ⟨-, v, hv⟩
      have hc : c = some v := hv c (List.mem_cons_self c rest)
      subst hc
      refine ⟨rfl, ?_⟩
      intro x hx
      exact hv x (List.mem_cons_of_mem _ hx)

/-- C1 (amended, for `State.check_for_outcome` of `connect4/game.py`): the
outcome is WIN iff some generated line has four identical non-empty cells,
DRAW iff the board has no empty cell and no winning line exists, and
unfinished (`None`) otherwise; on WIN the second component is the external
token owning a winning line. -/
theorem check_for_outcome_characterization (st : State) :
    (st.check_for_outcome.1 = some Outcomes.WIN ↔ HasWinningLine st) ∧
    (st.check_for_outcome.1 = some Outcomes.DRAW ↔
      (¬ HasWinningLine st ∧ ∀ c ∈ st.board, c.isSome = true)) ∧
    (st.check_for_outcome.1 = none ↔
      (¬ HasWinningLine st ∧ ∃ c ∈ st.board, c = none)) ∧
    (st.check_for_outcome.1 = some Outcomes.WIN →
      ∃ line ∈ st.generate_lines, isWinningLine line = true ∧
        st.check_for_outcome.2 = lineOwner st line) := by
  have hwin : HasWinningLine st ↔
      ∃ line ∈ st.generate_lines, isWinningLine line = true := by
    unfold HasWinningLine
    constructor
    · rintro ⟨l, hl, hne, v, hv⟩
      exact ⟨l, hl, (isWinningLine_iff l).2 ⟨hne, v, hv⟩⟩
    · rintro ⟨l, hl, hp⟩
      rcases (isWinningLine_iff l).1 hp with ⟨hne, v, hv⟩
      exact ⟨l, hl, hne, v, hv⟩
  rcases hfind : st.generate_lines.find? isWinningLine with _ | line
  · have hnone : ¬ HasWinningLine st := by
      rw [hwin]
      rintro ⟨l, hl, hp⟩
      have := List.find?_eq_none.1 hfind l hl
      simp [hp] at this
    by_cases hfullb : st.board.all (fun c => c.isSome) = true
    · have hout : st.check_for_outcome = (some Outcomes.DRAW, none) := by
        simp [State.check_for_outcome, hfind, hfullb]
      rw [hout]
      refine ⟨by simp [hnone], ?_, ?_, by simp⟩
      · constructor
        · intro _
          exact ⟨hnone, List.all_eq_true.1 hfullb⟩
        · intro _
          rfl
      · constructor
        · intro h
          simp at h
        · rintro ⟨-, c, hc, rfl⟩
          have hs := List.all_eq_true.1 hfullb none hc
          simp at hs
    · have hout : st.check_for_outcome = (none, none) := by
        simp [State.check_for_outcome, hfind, hfullb]
      rw [hout]
      refine ⟨by simp [hnone], ?_, ?_, by simp⟩
      · constructor
        · intro h
          simp at h
        · rintro ⟨-, hall⟩
          exact absurd (List.all_eq_true.2 hall) hfullb
      · constructor
        · intro _
          refine ⟨hnone, ?_⟩
          by_contra hno
          apply hfullb
          rw [List.all_eq_true]
          intro c hc
          rcases c with _ | v
          · exact absurd ⟨none, hc, rfl⟩ hno
          · rfl
        · intro _
          rfl
  · have hmem := List.mem_of_find?_eq_some hfind
    have hp := List.find?_some hfind
    have hhas : HasWinningLine st := hwin.2 ⟨line, hmem, hp⟩
    have hout : st.check_for_outcome = (some Outcomes.WIN, lineOwner st line) := by
      simp [State.check_for_outcome, hfind]
    rw [hout]
    refine ⟨by simp [hhas], by simp [hhas], by simp [hhas], ?_⟩
    intro _
    exact ⟨line, hmem, hp, rfl⟩

/-- C1 counterexample: the legacy `State.check_for_end` of `connect4.py`
checks board fullness BEFORE scanning for wins.  On the reachable 1 × 4
board `lcex` (token 0 placed in every column) a generated line has four
identical non-empty cells, yet the outcome check reports Draw for every
token instead of the WIN required by the claim. -/
theorem check_for_end_full_board_win_counterexample :
    (∃ line ∈ lcex.generate_lines, line ≠ [] ∧ ∃ v : Char, ∀ c ∈ line, c = some v) ∧
      lcex.check_for_end = some [(0, "Draw"), (1, "Draw")] := by
  constructor
  · exact ⟨[some 'a', some 'a', some 'a', some 'a'], by decide, by decide, 'a', by decide⟩
  · decide

/-- A cell of the board after a `set`: the written cell holds the new id,
every other cell is unchanged. -/
theorem cellAt_set (st : State) (i : Nat) (v : Nat) (r c : Nat)
    (hi : i < st.board.length) :
    cellAt { st with board := st.board.set i (some v) } r c =
      if r * st.n_columns + c - 1 = i then some v else cellAt st r c := by
  unfold cellAt
  by_cases h : r * st.n_columns + c - 1 = i
  · rw [if_pos h, h]
    exact getD_set_self _ _ _ _ hi
  · rw [if_neg h]
    exact getD_set_ne _ _ _ (fun hh => h hh.symm)

/-- The fresh all-empty board satisfies the column-stacking invariant. -/
theorem stacked_init (tokens : List Token) (size : Nat × Nat) :
    Stacked (State.init tokens size) := by
  intro c hc r2 hr2 r1 h12 h1s
  exfalso
  have hcell : cellAt (State.init tokens size) r1 (c+1) = none := by
    unfold cellAt State.init
    simp [getD_replicate]
  rw [hcell] at h1s
  simp at h1s

/-- A successful placement preserves the column-stacking invariant,
provided every cell below the written one in its column was occupied. -/
theorem stacked_set (st : State) (col : Nat) (rstar : Nat) (id : Nat)
    (hlen : st.board.length = st.n_rows * st.n_columns)
    (hstk : Stacked st) (hc1 : 1 ≤ col) (hc2 : col ≤ st.n_columns)
    (hr : rstar < st.n_rows)
    (hbelow : ∀ r2, rstar < r2 → r2 < st.n_rows → (cellAt st r2 col).isSome = true) :
    Stacked { st with board := st.board.set (rstar * st.n_columns + col - 1) (some id) } := by
  have hidx : rstar * st.n_columns + col - 1 < st.board.length := by
    rw [hlen]
    have he : rstar * st.n_columns + col - 1 = rstar * st.n_columns + (col - 1) := by omega
    rw [he]
    exact index_lt hr (by omega)
  intro c2 hc2' r2 hr2 r1 h12 h1s
  dsimp only at hc2' hr2
  rw [cellAt_set st _ id r2 (c2+1) hidx]
  rw [cellAt_set st _ id r1 (c2+1) hidx] at h1s
  by_cases he2 : r2 * st.n_columns + (c2+1) - 1 = rstar * st.n_columns + col - 1
  · rw [if_pos he2]
    rfl
  · rw [if_neg he2]
    by_cases he1 : r1 * st.n_columns + (c2+1) - 1 = rstar * st.n_columns + col - 1
    · have hdec : r1 = rstar ∧ c2 = col - 1 := by
        apply rowcol_inj hc2' (show col - 1 < st.n_columns by omega)
        omega
      rcases hdec with ⟨rfl, rfl⟩
      have hcol : col - 1 + 1 = col := by omega
      rw [hcol]
      rw [hcol] at he2
      have hne : r2 ≠ r1 := by
        intro hEq
        exact he2 (hEq ▸ rfl)
      exact hbelow r2 (by omega) hr2
    · rw [if_neg he1] at h1s
      exact hstk c2 hc2' r2 hr2 r1 h12 h1s

/-- C2: in a column-stacked state (the invariant of all reachable states,
established by `stacked_init` and preserved below), placing a known token
into a column with an empty cell succeeds, writing the token's internal id
into the unique lowest empty cell of that column — the empty cell with
every cell below it occupied — never overwriting an occupied cell; all
other cells are untouched and the stacking invariant is preserved, so
repeated placements stack upward without gaps. -/
theorem place_token_lowest_empty_cell (st : State) (col : Nat) (tok : Token) (id : Nat)
    (hlen : st.board.length = st.n_rows * st.n_columns)
    (hstk : Stacked st)
    (hc1 : 1 ≤ col) (hc2 : col ≤ st.n_columns)
    (hopen : ∃ r, r < st.n_rows ∧ cellAt st r col = none)
    (htok : lookupToken st.token_map tok = some id) :
    ∃ r, r < st.n_rows ∧ cellAt st r col = none ∧
      (∀ r2, r < r2 → r2 < st.n_rows → (cellAt st r2 col).isSome = true) ∧
      st.place_token col tok =
        .ok { st with board := st.board.set (r * st.n_columns + col - 1) (some id) } ∧
      Stacked { st with board := st.board.set (r * st.n_columns + col - 1) (some id) } := by
  obtain ⟨r0, hr0, hr0e⟩ := hopen
  have hstk2 : ∀ r1 r2, r1 ≤ r2 → r2 < st.n_rows →
      (cellAt st r1 col).isSome = true → (cellAt st r2 col).isSome = true := by
    intro r1 r2 h12 h2 h1s
    have hcc : col - 1 < st.n_columns := by omega
    have := hstk (col - 1) hcc r2 h2 r1 h12
    rw [show col - 1 + 1 = col from by omega] at this
    exact this h1s
  by_cases hocc : ∃ m, m < st.n_rows ∧ (cellAt st m col).isSome = true
  · have hm := Nat.find_spec hocc
    set m := Nat.find hocc with hmdef
    have hm1 : 1 ≤ m := by
      rcases Nat.eq_zero_or_pos m with h0 | h1
      · exfalso
        have hocc0 : (cellAt st 0 col).isSome = true := by
          have := hm.2
          rw [h0] at this
          exact this
        have := hstk2 0 r0 (Nat.zero_le r0) hr0 hocc0
        rw [hr0e] at this
        simp at this
      · exact h1
    have hemp : ∀ i, i < m → cellAt st i col = none := by
      intro i hi
      have hni := Nat.find_min hocc hi
      have hiR : i < st.n_rows := by omega
      rcases hcell : cellAt st i col with _ | v
      · rfl
      · exact absurd ⟨hiR, by rw [hcell]; rfl⟩ hni
    have hscan : scanColumn st.board st.n_columns col 0 st.n_rows none = some (m - 1) := by
      apply scanColumn_from st.board st.n_columns col st.n_rows 0 m none (by omega)
      · intro i hi0 him
        exact hemp i him
      · exact Or.inr ⟨by omega, hm.2⟩
    have hbelow : ∀ r2, m - 1 < r2 → r2 < st.n_rows → (cellAt st r2 col).isSome = true :=
      fun r2 h1 h2 => hstk2 m r2 (by omega) h2 hm.2
    refine ⟨m - 1, by omega, hemp (m - 1) (by omega), hbelow, ?_, ?_⟩
    · simp only [State.place_token, lowestOpenCellInColumn, hscan, htok]
    · exact stacked_set st col (m - 1) id hlen hstk hc1 hc2 (by omega) hbelow
  · have hempAll : ∀ i, i < st.n_rows → cellAt st i col = none := by
      intro i hi
      rcases hcell : cellAt st i col with _ | v
      · rfl
      · exact absurd ⟨i, hi, by rw [hcell]; rfl⟩ hocc
    have hscan : scanColumn st.board st.n_columns col 0 st.n_rows none =
        some (st.n_rows - 1) := by
      apply scanColumn_from st.board st.n_columns col st.n_rows 0 st.n_rows none (by omega)
      · intro i hi0 him
        exact hempAll i him
      · exact Or.inl (by omega)
    have hbelow : ∀ r2, st.n_rows - 1 < r2 → r2 < st.n_rows →
        (cellAt st r2 col).isSome = true := by
      intro r2 h1 h2
      exfalso
      omega
    refine ⟨st.n_rows - 1, by omega, hempAll (st.n_rows - 1) (by omega), hbelow, ?_, ?_⟩
    · simp only [State.place_token, lowestOpenCellInColumn, hscan, htok]
    · exact stacked_set st col (st.n_rows - 1) id hlen hstk hc1 hc2 (by omega) hbelow

/-- C2 witness: on the fresh 2 × 1 board, placing token 5 lands in the
bottom row (row 1), with nothing below it and nothing overwritten. -/
theorem place_token_lowest_empty_cell_witness :
    ∃ r, r < wSt.n_rows ∧ cellAt wSt r 1 = none ∧
      (∀ r2, r < r2 → r2 < wSt.n_rows → (cellAt wSt r2 1).isSome = true) ∧
      wSt.place_token 1 5 =
        .ok { wSt with board := wSt.board.set (r * wSt.n_columns + 1 - 1) (some 0) } ∧
      Stacked { wSt with board := wSt.board.set (r * wSt.n_columns + 1 - 1) (some 0) } :=
  place_token_lowest_empty_cell wSt 1 5 0 rfl (stacked_init [5] (2, 1))
    (by decide) (by decide) ⟨0, by decide, by decide⟩ (by decide)

/-- Inversion of a successful `place_token`: it found an open row, looked
up the token's internal id and wrote exactly that one cell. -/
theorem place_token_ok_inv {st st' : State} {col : Nat} {tok : Token}
    (h : st.place_token col tok = .ok st') :
    ∃ row id, lowestOpenCellInColumn st col = some row ∧
      lookupToken st.token_map tok = some id ∧
      st' = { st with board := st.board.set (row * st.n_columns + col - 1) (some id) } := by
  unfold State.place_token at h
  rcases hscan : lowestOpenCellInColumn st col with _ | row
  · rw [hscan] at h
    simp at h
  · rw [hscan] at h
    rcases htok : lookupToken st.token_map tok with _ | id
    · rw [htok] at h
      simp at h
    · rw [htok] at h
      simp at h
      exact ⟨row, id, rfl, rfl, h.symm⟩

/-- Inversion of a successful structural validation. -/
theorem validate_ok_inv {C : Nat} {a : Action} {n : Int}
    (h : validate_structure C a = .ok n) :
    1 ≤ n ∧ n ≤ (C : Int) ∧ a.place_column = .int n ∧ a.action = .PLACE := by
  rcases a with ⟨act, pc⟩
  cases act
  rcases pc with v | _
  · have hvs : validate_structure C { action := .PLACE, place_column := .int v } =
        if v < 1 ∨ v > (C : Int) then .error .valueError else .ok v := rfl
    rw [hvs] at h
    split_ifs at h with hrange
    injection h with h
    subst h
    exact ⟨by omega, by omega, rfl, rfl⟩
  · have hvs : validate_structure C { action := .PLACE, place_column := .notInt } =
        (.error .typeError : Except GameErr Int) := rfl
    rw [hvs] at h
    simp at h

/-- Translating a board whose ids all occur in the dict succeeds, and
every translated cell is empty or a key of the dict. -/
theorem resolveBoard_ok (m : List (Token × Nat)) :
    ∀ l : List Cell, (∀ c ∈ l, ∀ id, c = some id → ∃ p ∈ m, p.2 = id) →
      ∃ res, resolveBoard m l = .ok res ∧
        ∀ x ∈ res, x = none ∨ ∃ t, x = some t ∧ ∃ p ∈ m, p.1 = t := by
  intro l
  induction l with
  | nil =>
    intro _
    exact ⟨[], rfl, by simp⟩
  | cons c rest ih =>
    intro h
    obtain ⟨res, hres, hprop⟩ := ih (fun c2 hc2 => h c2 (List.mem_cons_of_mem _ hc2))
    rcases c with _ | id
    · refine ⟨none :: res, ?_, ?_⟩
      · simp [resolveBoard, resolveCell, hres]
      · intro x hx
        rcases List.mem_cons.1 hx with rfl | hxr
        · exact Or.inl rfl
        · exact hprop x hxr
    · have hid : ∃ p ∈ m, p.2 = id := h (some id) (List.mem_cons_self _ _) id rfl
      have hsome := lookupId_isSome hid
      rcases hl : lookupId m id with _ | t
      · rw [hl] at hsome
        simp at hsome
      · refine ⟨some t :: res, ?_, ?_⟩
        · simp [resolveBoard, resolveCell, hl, hres]
        · intro x hx
          rcases List.mem_cons.1 hx with rfl | hxr
          · obtain ⟨p, hp, hp1, hp2⟩ := lookupId_mem hl
            exact Or.inr ⟨t, rfl, p, hp, hp1⟩
          · exact hprop x hxr

/-- C8: every state reachable during a game exposes a view whose cells are
all either the empty marker or one of the externally supplied tokens — an
internal token id never appears in a `StateView`. -/
theorem expose_view_only_external_tokens (tokens : List Token) (size : Nat × Nat)
    (st : State) (h : Reachable tokens size st) :
    ∃ v, st.expose_view = .ok v ∧
      ∀ cell ∈ v.board, cell = none ∨ ∃ t, cell = some t ∧ t ∈ tokens := by
  have hfacts : st.token_map = buildMap (tokens.zip (List.range tokens.length)) ∧
      (∀ c ∈ st.board, ∀ id, c = some id → ∃ p ∈ st.token_map, p.2 = id) := by
    induction h with
    | init =>
      refine ⟨rfl, ?_⟩
      intro c hc id hcid
      rw [List.eq_of_mem_replicate hc] at hcid
      simp at hcid
    | step hr hplace ih =>
      obtain ⟨row, id2, hscan, htok, rfl⟩ := place_token_ok_inv hplace
      refine ⟨ih.1, ?_⟩
      intro c hc id hcid
      dsimp only at hc ⊢
      rcases List.mem_or_eq_of_mem_set hc with hold | hnew
      · exact ih.2 c hold id hcid
      · subst hnew
        injection hcid with h2
        subst h2
        exact ⟨_, lookupToken_mem htok, rfl⟩
  obtain ⟨hmap, hids⟩ := hfacts
  obtain ⟨res, hres, hprop⟩ := resolveBoard_ok st.token_map st.board hids
  refine ⟨{ board_size := (st.n_rows, st.n_columns), board := res }, ?_, ?_⟩
  · unfold State.expose_view
    rw [hres]
  · intro cell hcell
    rcases hprop cell hcell with h0 | ⟨t, ht, p, hp, hp1⟩
    · exact Or.inl h0
    · right
      refine ⟨t, ht, ?_⟩
      rw [hmap] at hp
      obtain ⟨q, hq, hpq⟩ := buildMap_keys hp
      rcases q with ⟨a, b⟩
      have ha : a ∈ tokens := (List.of_mem_zip hq).1
      rw [← hp1, hpq]
      exact ha

/-- C8 witness: the fresh state over tokens 3 and 4 exposes a view whose
only cell is the empty marker. -/
theorem expose_view_only_external_tokens_witness :
    ∃ v, (State.init [3, 4] (1, 1)).expose_view = .ok v ∧
      ∀ cell ∈ v.board, cell = none ∨ ∃ t, cell = some t ∧ t ∈ [3, 4] :=
  expose_view_only_external_tokens [3, 4] (1, 1) _ Reachable.init

/-- The loop of `Game.play` never exhausts a fuel budget exceeding the
number of empty cells: every iteration either terminates the game (win,
draw, or a raised error) or performs one successful placement, which
strictly decreases the number of empty cells. -/
theorem playAux_no_fuelOut (g : Game) (perm : List AgentSpec) :
    ∀ (fuel : Nat) (queue : List AgentSpec) (st : State) (out : Outcome),
      st.n_columns = g.n_columns →
      st.board.length = st.n_rows * st.n_columns →
      emptyCount st.board < fuel →
      playAux g perm fuel queue st out ≠ .fuelOut := by
  intro fuel
  induction fuel with
  | zero =>
    intro queue st out _ _ he
    omega
  | succ fuel ih =>
    intro queue st out hcols hlen he
    rcases hnext : nextAgent perm queue with _ | ⟨ag, queue2⟩
    · simp [playAux, hnext]
    · rcases hview : st.expose_view with e | view
      · simp [playAux, hnext, hview]
      · rcases hval : validate_structure g.n_columns (ag.strategy view) with e | colv
        · simp [playAux, hnext, hview, hval]
        · rcases hplace : st.place_token colv.toNat ag.token with e | st2
          · simp [playAux, hnext, hview, hval, hplace]
          · obtain ⟨hn1, hn2, -, -⟩ := validate_ok_inv hval
            have hcol : 1 ≤ colv.toNat ∧ colv.toNat ≤ st.n_columns := by
              rw [hcols]
              omega
            obtain ⟨row, id, hscan, htok, hst2⟩ := place_token_ok_inv hplace
            have hsound := scanColumn_sound st.board st.n_columns colv.toNat st.n_rows 0 none
              (by intro j hj; simp at hj) row hscan
            have hidx : row * st.n_columns + colv.toNat - 1 < st.board.length := by
              rw [hlen]
              have heq : row * st.n_columns + colv.toNat - 1 =
                  row * st.n_columns + (colv.toNat - 1) := by omega
              rw [heq]
              exact index_lt (by omega) (by omega)
            have hec : emptyCount (st.board.set
                  (row * st.n_columns + colv.toNat - 1) (some id)) + 1 =
                emptyCount st.board :=
              emptyCount_set id st.board _ hidx hsound.2
            simp only [playAux, hnext, hview, hval, hplace]
            rcases hcheck : st2.check_for_outcome with ⟨o, wt⟩
            rcases o with _ | oc
            · simp only []
              apply ih queue2 st2 _ (by rw [hst2]; exact hcols) (by rw [hst2]; simpa using hlen)
              rw [hst2]
              dsimp only
              omega
            · rcases oc with _ | _ | _
              · simp
              · simp only []
                apply ih queue2 st2 _ (by rw [hst2]; exact hcols) (by rw [hst2]; simpa using hlen)
                rw [hst2]
                dsimp only
                omega
              · simp

/-- C10: for every game configuration and permutation, the play loop
terminates within `rows * columns + 1` iterations — i.e. after at most
`rows * columns` successful placements — ending in a win, a draw, or a
raised error; fuel `rows*columns + 1` is never exhausted. -/
theorem play_terminates_within_board_size (g : Game) (perm : List AgentSpec) :
    g.play perm (g.n_rows * g.n_columns + 1) ≠ PlayResult.fuelOut := by
  have hne : playAux g perm (g.n_rows * g.n_columns + 1) perm
      (State.init (g.agents.map (fun a => a.token)) (g.n_rows, g.n_columns))
      (Outcome.init g.agents) ≠ .fuelOut := by
    refine playAux_no_fuelOut g perm (g.n_rows * g.n_columns + 1) perm
      (State.init (g.agents.map (fun a => a.token)) (g.n_rows, g.n_columns))
      (Outcome.init g.agents) rfl ?_ ?_
    · simp [State.init]
    · have hrep : emptyCount (State.init (g.agents.map (fun a => a.token))
          (g.n_rows, g.n_columns)).board = g.n_rows * g.n_columns := by
        unfold State.init
        exact emptyCount_replicate _
      rw [hrep]
      omega
  unfold Game.play
  cases hrun : playAux g perm (g.n_rows * g.n_columns + 1) perm
      (State.init (g.agents.map (fun a => a.token)) (g.n_rows, g.n_columns))
      (Outcome.init g.agents) with
  | done out => simp
  | raised e st => simp
  | fuelOut => exact absurd hrun hne

/-- Membership in the horizontal family. -/
theorem mem_hLines {R C : Nat} {l : List Nat} :
    l ∈ hLines R C ↔ ∃ r c, r < R ∧ c + 3 < C ∧ l = sliceIdx (r * C + c) 1 := by
  simp only [hLines, List.mem_flatMap, List.mem_map, List.mem_range]
  constructor
  · rintro ⟨r, hr, c, hc, rfl⟩
    exact ⟨r, c, hr, by omega, rfl⟩
  · rintro ⟨r, c, hr, hc, rfl⟩
    exact ⟨r, hr, c, by omega, rfl⟩

/-- Membership in the vertical family. -/
theorem mem_vLines {R C : Nat} {l : List Nat} :
    l ∈ vLines R C ↔ ∃ r c, r + 3 < R ∧ c < C ∧ l = sliceIdx (r * C + c) C := by
  simp only [vLines, List.mem_flatMap, List.mem_map, List.mem_range]
  constructor
  · rintro ⟨r, hr, c, hc, rfl⟩
    exact ⟨r, c, by omega, hc, rfl⟩
  · rintro ⟨r, c, hr, hc, rfl⟩
    exact ⟨r, by omega, c, hc, rfl⟩

/-- Membership in the `\` diagonal family. -/
theorem mem_d1Lines {R C : Nat} {l : List Nat} :
    l ∈ d1Lines R C ↔ ∃ r c, r + 3 < R ∧ c + 3 < C ∧ l = sliceIdx (r * C + c) (C + 1) := by
  simp only [d1Lines, List.mem_flatMap, List.mem_map, List.mem_range]
  constructor
  · rintro ⟨r, hr, c, hc, rfl⟩
    exact ⟨r, c, by omega, by omega, rfl⟩
  · rintro ⟨r, c, hr, hc, rfl⟩
    exact ⟨r, by omega, c, by omega, rfl⟩

/-- Membership in the `/` diagonal family. -/
theorem mem_d2Lines {R C : Nat} {l : List Nat} :
    l ∈ d2Lines R C ↔
      ∃ r c, r + 3 < R ∧ 3 ≤ c ∧ c < C ∧ l = sliceIdx (r * C + c) (C - 1) := by
  simp only [d2Lines, List.mem_flatMap, List.mem_map, List.mem_range]
  constructor
  · rintro ⟨r, hr, c, ⟨c0, hc0, rfl⟩, rfl⟩
    exact ⟨r, c0 + 3, by omega, by omega, by omega, rfl⟩
  · rintro ⟨r, c, hr, hc3, hcC, rfl⟩
    exact ⟨r, by omega, c, ⟨c - 3, by omega, by omega⟩, rfl⟩

/-- The horizontal slice is the horizontal run of cells. -/
theorem sliceIdx_h (r c C : Nat) :
    sliceIdx (r * C + c) 1 =
      [r * C + c, r * C + (c+1), r * C + (c+2), r * C + (c+3)] := by
  simp only [sliceIdx, List.cons.injEq]
  repeat' apply And.intro
  all_goals trivial

/-- The vertical slice is the vertical run of cells. -/
theorem sliceIdx_v (r c C : Nat) :
    sliceIdx (r * C + c) C =
      [r * C + c, (r+1) * C + c, (r+2) * C + c, (r+3) * C + c] := by
  simp only [sliceIdx, List.cons.injEq, Nat.add_mul]
  repeat' apply And.intro
  all_goals first | trivial | omega

/-- The `\` diagonal slice is the down-right run of cells. -/
theorem sliceIdx_d1 (r c C : Nat) :
    sliceIdx (r * C + c) (C + 1) =
      [r * C + c, (r+1) * C + (c+1), (r+2) * C + (c+2), (r+3) * C + (c+3)] := by
  simp only [sliceIdx, List.cons.injEq, Nat.add_mul]
  repeat' apply And.intro
  all_goals first | trivial | omega

/-- The `/` diagonal slice is the down-left run of cells (for a start
column `3 ≤ c < C`, where that slice is generated). -/
theorem sliceIdx_d2 (r c C : Nat) (h3 : 3 ≤ c) (hC : c < C) :
    sliceIdx (r * C + c) (C - 1) =
      [r * C + c, (r+1) * C + (c-1), (r+2) * C + (c-2), (r+3) * C + (c-3)] := by
  simp only [sliceIdx, List.cons.injEq, Nat.add_mul]
  repeat' apply And.intro
  all_goals first | trivial | omega

/-- Two equal slices have equal start and equal step. -/
theorem sliceIdx_inj {a1 s1 a2 s2 : Nat} (h : sliceIdx a1 s1 = sliceIdx a2 s2) :
    a1 = a2 ∧ s1 = s2 := by
  simp only [sliceIdx, List.cons.injEq] at h
  constructor <;> omega

/-- C3, membership half: the yielded slices are exactly the length-4 runs
that fit on the board, in all four directions. -/
theorem generateLineIdx_mem {R C : Nat} {l : List Nat} :
    l ∈ generateLineIdx R C ↔ IsFourRunSpec R C l := by
  unfold generateLineIdx IsFourRunSpec
  simp only [List.mem_append, mem_hLines, mem_vLines, mem_d1Lines, mem_d2Lines]
  constructor
  · rintro (((⟨r, c, h1, h2, rfl⟩ | ⟨r, c, h1, h2, rfl⟩) | ⟨r, c, h1, h2, rfl⟩) |
      ⟨r, c, h1, h2, h3, rfl⟩)
    · exact Or.inl ⟨r, c, h1, h2, sliceIdx_h r c C⟩
    · exact Or.inr (Or.inl ⟨r, c, h1, h2, sliceIdx_v r c C⟩)
    · exact Or.inr (Or.inr (Or.inl ⟨r, c, h1, h2, sliceIdx_d1 r c C⟩))
    · exact Or.inr (Or.inr (Or.inr ⟨r, c, h1, h2, h3, sliceIdx_d2 r c C h2 h3⟩))
  · rintro (⟨r, c, h1, h2, rfl⟩ | ⟨r, c, h1, h2, rfl⟩ | ⟨r, c, h1, h2, rfl⟩ |
      ⟨r, c, h1, h2, h3, rfl⟩)
    · exact Or.inl (Or.inl (Or.inl ⟨r, c, h1, h2, (sliceIdx_h r c C).symm⟩))
    · exact Or.inl (Or.inl (Or.inr ⟨r, c, h1, h2, (sliceIdx_v r c C).symm⟩))
    · exact Or.inl (Or.inr ⟨r, c, h1, h2, (sliceIdx_d1 r c C).symm⟩)
    · exact Or.inr ⟨r, c, h1, h2, h3, (sliceIdx_d2 r c C h2 h3).symm⟩

/-- A slice family over distinct rows and distinct in-range start columns
has no duplicates. -/
theorem nodup_family (A C s : Nat) (cs : List Nat) (hcs : cs.Nodup)
    (hlt : ∀ c ∈ cs, c < C) :
    ((List.range A).flatMap (fun r => cs.map (fun c => sliceIdx (r * C + c) s))).Nodup := by
  rw [List.nodup_flatMap]
  constructor
  · intro r hr
    apply List.Nodup.map_on ?_ hcs
    intro c1 h1 c2 h2 heq
    have hh := congrArg (fun l => l.headD 0) heq
    simp only [sliceIdx, List.headD_cons] at hh
    omega
  · have hpl := List.pairwise_lt_range A
    apply hpl.imp
    intro r1 r2 hlt12
    intro l hl1 hl2
    rcases List.mem_map.1 hl1 with ⟨c1, hc1, rfl⟩
    rcases List.mem_map.1 hl2 with ⟨c2, hc2, heq⟩
    have hh := congrArg (fun l => l.headD 0) heq
    simp only [sliceIdx, List.headD_cons] at hh
    have hdec := rowcol_inj (hlt c2 hc2) (hlt c1 hc1) hh
    omega

/-- The horizontal and vertical families share no slice. -/
theorem hv_disjoint (R C : Nat) : (hLines R C).Disjoint (vLines R C) := by
  intro l hl1 hl2
  rcases mem_hLines.1 hl1 with ⟨r1, c1, h1, h2, rfl⟩
  rcases mem_vLines.1 hl2 with ⟨r2, c2, h3, h4, heq⟩
  obtain ⟨-, hs⟩ := sliceIdx_inj heq
  omega

/-- The horizontal and `\` families share no slice. -/
theorem hd1_disjoint (R C : Nat) : (hLines R C).Disjoint (d1Lines R C) := by
  intro l hl1 hl2
  rcases mem_hLines.1 hl1 with ⟨r1, c1, h1, h2, rfl⟩
  rcases mem_d1Lines.1 hl2 with ⟨r2, c2, h3, h4, heq⟩
  obtain ⟨-, hs⟩ := sliceIdx_inj heq
  omega

/-- The horizontal and `/` families share no slice. -/
theorem hd2_disjoint (R C : Nat) : (hLines R C).Disjoint (d2Lines R C) := by
  intro l hl1 hl2
  rcases mem_hLines.1 hl1 with ⟨r1, c1, h1, h2, rfl⟩
  rcases mem_d2Lines.1 hl2 with ⟨r2, c2, h3, h4, h5, heq⟩
  obtain ⟨-, hs⟩ := sliceIdx_inj heq
  omega

/-- The vertical and `\` families share no slice. -/
theorem vd1_disjoint (R C : Nat) : (vLines R C).Disjoint (d1Lines R C) := by
  intro l hl1 hl2
  rcases mem_vLines.1 hl1 with ⟨r1, c1, h1, h2, rfl⟩
  rcases mem_d1Lines.1 hl2 with ⟨r2, c2, h3, h4, heq⟩
  obtain ⟨-, hs⟩ := sliceIdx_inj heq
  omega

/-- The vertical and `/` families share no slice. -/
theorem vd2_disjoint (R C : Nat) : (vLines R C).Disjoint (d2Lines R C) := by
  intro l hl1 hl2
  rcases mem_vLines.1 hl1 with ⟨r1, c1, h1, h2, rfl⟩
  rcases mem_d2Lines.1 hl2 with ⟨r2, c2, h3, h4, h5, heq⟩
  obtain ⟨-, hs⟩ := sliceIdx_inj heq
  omega

/-- The two diagonal families share no slice. -/
theorem d1d2_disjoint (R C : Nat) : (d1Lines R C).Disjoint (d2Lines R C) := by
  intro l hl1 hl2
  rcases mem_d1Lines.1 hl1 with ⟨r1, c1, h1, h2, rfl⟩
  rcases mem_d2Lines.1 hl2 with ⟨r2, c2, h3, h4, h5, heq⟩
  obtain ⟨-, hs⟩ := sliceIdx_inj heq
  omega

/-- C3, uniqueness half: no slice is yielded twice. -/
theorem generateLineIdx_nodup (R C : Nat) : (generateLineIdx R C).Nodup := by
  have hh : (hLines R C).Nodup := by
    unfold hLines
    exact nodup_family R C 1 (List.range (C - 3)) (List.nodup_range _)
      (fun c hc => by simp at hc; omega)
  have hv : (vLines R C).Nodup := by
    unfold vLines
    exact nodup_family (R - 3) C C (List.range C) (List.nodup_range _)
      (fun c hc => by simpa using hc)
  have hd1 : (d1Lines R C).Nodup := by
    unfold d1Lines
    exact nodup_family (R - 3) C (C + 1) (List.range (C - 3)) (List.nodup_range _)
      (fun c hc => by simp at hc; omega)
  have hd2 : (d2Lines R C).Nodup := by
    unfold d2Lines
    apply nodup_family (R - 3) C (C - 1) ((List.range (C - 3)).map (fun c => c + 3))
    · exact List.Nodup.map (fun a b hab => by omega) (List.nodup_range _)
    · intro c hc
      rcases List.mem_map.1 hc with ⟨c0, hc0, rfl⟩
      simp at hc0
      omega
  unfold generateLineIdx
  refine List.Nodup.append (List.Nodup.append (List.Nodup.append hh hv (hv_disjoint R C))
    hd1 ?_) hd2 ?_
  · intro l hl1 hl2
    rcases List.mem_append.1 hl1 with hlh | hlv
    · exact hd1_disjoint R C hlh hl2
    · exact vd1_disjoint R C hlv hl2
  · intro l hl1 hl2
    rcases List.mem_append.1 hl1 with hl12 | hld1
    · rcases List.mem_append.1 hl12 with hlh | hlv
      · exact hd2_disjoint R C hlh hl2
      · exact vd2_disjoint R C hlv hl2
    · exact d1d2_disjoint R C hld1 hl2

/-- C3: for every board size, `_generate_lines` yields exactly the set of
length-4 contiguous runs that fit on the board — horizontal, vertical and
both diagonal directions — each run exactly once (no duplicates, no run
omitted), for every aspect ratio including `rows ≠ columns` and dimensions
smaller than 4; and `State.generate_lines` reads the board cells of
exactly these runs. -/
theorem generate_lines_exactly_all_runs (R C : Nat) :
    (generateLineIdx R C).Nodup ∧
      (∀ l, l ∈ generateLineIdx R C ↔ IsFourRunSpec R C l) ∧
      (∀ st : State, st.n_rows = R → st.n_columns = C →
        st.generate_lines = (generateLineIdx R C).map
          (fun idxs => idxs.map (fun i => st.board.getD i none))) := by
  refine ⟨generateLineIdx_nodup R C, fun l => generateLineIdx_mem, ?_⟩
  intro st h1 h2
  unfold State.generate_lines
  rw [h1, h2]

end Connect4
